import Mathlib

/-!
Shallow embedding of the generator transaction engine of this repository:
the `Tree` class (virtual filesystem overlay), its `commit`, the
`runGenerator` dry-run pipeline, and the `checkInstalled` idempotency
detector, translated from the TypeScript in the ADR documents
(ADR-003 / embedded ADR-005 Tree API, ADR-004 generator).

Modelling conventions:
* a JS `Map<string, Change>` is an insertion-ordered association list;
  `set` on a present key replaces the value in place (keeping its
  position), otherwise appends;
* the real filesystem is a finite map from full path to text content,
  together with a set of paths on which a write/delete raises (to model
  storage errors such as permission failures);
* `writeFileSync`/`mkdirSync`/`unlinkSync` effects are recorded in a
  trace of applied operations so that ordering claims can be stated;
* a thrown JS exception is an `Except.error` carrying the message.
-/

namespace Theo

/-- The `type` field of a staged change: `'create' | 'modify' | 'delete'`. -/
inductive ChangeType where
  | create
  | modify
  | delete
deriving DecidableEq, Repr

/-- One staged mutation, the `Change` interface of the Tree API:
`{ type, path, content? }` (`content` absent for deletes). -/
structure Change where
  type : ChangeType
  path : String
  content : Option String
deriving DecidableEq, Repr

/-- Insertion-ordered association-list update, the semantics of JS
`Map.prototype.set`: replace in place when the key is present, append
otherwise. -/
def alistSet {α : Type} : List (String × α) → String → α → List (String × α)
  | [], k, v => [(k, v)]
  | (k₀, v₀) :: rest, k, v =>
      if k₀ = k then (k, v) :: rest else (k₀, v₀) :: alistSet rest k v

/-- Association-list lookup, the semantics of JS `Map.prototype.get`. -/
def alistGet {α : Type} : List (String × α) → String → Option α
  | [], _ => none
  | (k₀, v₀) :: rest, k => if k₀ = k then some v₀ else alistGet rest k

/-- Association-list removal (used for `unlinkSync` on the real files). -/
def alistRemove {α : Type} : List (String × α) → String → List (String × α)
  | [], _ => []
  | (k₀, v₀) :: rest, k =>
      if k₀ = k then alistRemove rest k else (k₀, v₀) :: alistRemove rest k

/-- The real filesystem: full path to content, plus the set of full paths
on which the storage primitives raise (modelling permission errors). -/
structure FS where
  files : List (String × String)
  failing : List String
deriving DecidableEq, Repr

/-- `existsSync` on the real filesystem. -/
def fsExists (fs : FS) (p : String) : Bool :=
  (alistGet fs.files p).isSome

/-- `readFileSync` on the real filesystem (`none` when absent). -/
def fsRead (fs : FS) (p : String) : Option String :=
  alistGet fs.files p

/-- `mkdirSync(dirname, recursive) + writeFileSync`: creates parents as
needed and writes, raising on a failing path. -/
def fsWrite (fs : FS) (p c : String) : Except String FS :=
  if fs.failing.contains p then Except.error ("EACCES: " ++ p)
  else Except.ok { fs with files := alistSet fs.files p c }

/-- `unlinkSync`: removes a file, raising on a failing path. -/
def fsDelete (fs : FS) (p : String) : Except String FS :=
  if fs.failing.contains p then Except.error ("EACCES: " ++ p)
  else Except.ok { fs with files := alistRemove fs.files p }

/-- `join(baseDir, path)` as used by the Tree class (plain join, no
normalisation of `..` segments). -/
def joinPath (base p : String) : String :=
  base ++ "/" ++ p

/-- The virtual tree: `baseDir` plus the in-memory
`changes: Map<string, Change>` overlay. -/
structure Tree where
  baseDir : String
  changes : List (String × Change)
deriving DecidableEq, Repr

/-- `Tree.read`: staged delete gives `null`; a staged create/modify gives
the staged content; otherwise read through to the real filesystem. -/
def Tree.read (fs : FS) (t : Tree) (path : String) : Option String :=
  match alistGet t.changes path with
  | some c => if c.type = ChangeType.delete then none else c.content
  | none => fsRead fs (joinPath t.baseDir path)

/-- `Tree.write`: stages `{ type: 'create', path, content }`
unconditionally, only touching the in-memory map. -/
def Tree.write (t : Tree) (path content : String) : Tree :=
  { t with changes := alistSet t.changes path ⟨ChangeType.create, path, some content⟩ }

/-- `Tree.modify`: reads the effective content; the JS guard
`if (!current) throw` fires both on `null` and on the empty string
(falsy), otherwise stages the transformed content as a modify. -/
def Tree.modify (fs : FS) (t : Tree) (path : String) (f : String → String) :
    Except String Tree :=
  match Tree.read fs t path with
  | none => Except.error ("File " ++ path ++ " does not exist")
  | some s =>
      if s = "" then Except.error ("File " ++ path ++ " does not exist")
      else Except.ok
        { t with changes := alistSet t.changes path ⟨ChangeType.modify, path, some (f s)⟩ }

/-- The arguments `Tree.modify` passes to its modifier, in order: the
single call site `modifier(current)` runs only past the falsy guard, so
the list is `[current]` on success and `[]` otherwise. -/
def Tree.modifyCalls (fs : FS) (t : Tree) (path : String) : List String :=
  match Tree.read fs t path with
  | none => []
  | some s => if s = "" then [] else [s]

/-- `Tree.delete`: stages `{ type: 'delete', path }` unconditionally,
only touching the in-memory map. -/
def Tree.delete (t : Tree) (path : String) : Tree :=
  { t with changes := alistSet t.changes path ⟨ChangeType.delete, path, none⟩ }

/-- `Tree.exists`: a staged record decides (delete means absent),
otherwise `existsSync` on the real filesystem. -/
def Tree.existsFile (fs : FS) (t : Tree) (path : String) : Bool :=
  match alistGet t.changes path with
  | some c => c.type != ChangeType.delete
  | none => fsExists fs (joinPath t.baseDir path)

/-- `Tree.getChanges`: `Array.from(this.changes.values())`, the staged
records in the insertion order of the map. -/
def Tree.getChanges (t : Tree) : List Change :=
  t.changes.map Prod.snd

/-- `Tree.rollback`: clears the overlay without touching storage. -/
def Tree.rollback (t : Tree) : Tree :=
  { t with changes := [] }

/-- One disk effect performed during the apply loop of `commit`. -/
inductive AppliedOp where
  | wrote (path content : String)
  | removed (path : String)
deriving DecidableEq, Repr

/-- The apply loop of `Tree.commit`: one pass over the staged records in
map order; create/modify writes (creating parents), delete unlinks when
the file exists; a raised storage error stops the loop at once. -/
def commitGo (base : String) (fs : FS) (tr : List AppliedOp) :
    List Change → FS × List AppliedOp × Except String Unit
  | [] => (fs, tr, Except.ok ())
  | c :: rest =>
      match c.type with
      | ChangeType.create | ChangeType.modify =>
          match fsWrite fs (joinPath base c.path) (c.content.getD "") with
          | Except.error e => (fs, tr, Except.error e)
          | Except.ok fs₁ =>
              commitGo base fs₁ (tr ++ [AppliedOp.wrote (joinPath base c.path) (c.content.getD "")]) rest
      | ChangeType.delete =>
          if fsExists fs (joinPath base c.path) then
            match fsDelete fs (joinPath base c.path) with
            | Except.error e => (fs, tr, Except.error e)
            | Except.ok fs₁ =>
                commitGo base fs₁ (tr ++ [AppliedOp.removed (joinPath base c.path)]) rest
          else commitGo base fs tr rest

/-- What a call to `Tree.commit` leaves behind: the real filesystem, the
trace of disk effects, the value the caller observes (resolution or the
propagated exception), and the tree object afterwards. -/
structure CommitOutcome where
  fs : FS
  applied : List AppliedOp
  result : Except String Unit
  tree : Tree
deriving Repr

/-- `Tree.commit`: runs the apply loop over the staged records;
`this.changes.clear()` runs only when the loop finished without raising. -/
def Tree.commit (fs : FS) (t : Tree) : CommitOutcome :=
  match commitGo t.baseDir fs [] t.getChanges with
  | (fs₁, tr, Except.ok u) => ⟨fs₁, tr, Except.ok u, { t with changes := [] }⟩
  | (fs₁, tr, Except.error e) => ⟨fs₁, tr, Except.error e, t⟩

/-- One staged call a generator makes against the tree. -/
inductive StageOp where
  | write (path content : String)
  | modifyWith (path : String) (f : String → String)
  | deleteAt (path : String)

/-- Applying one staged call: a raised `NotFound` from `modify` leaves
the overlay as it was (the generator may catch it and continue). -/
def applyStage (fs : FS) (t : Tree) : StageOp → Tree
  | StageOp.write p c => Tree.write t p c
  | StageOp.modifyWith p f =>
      match Tree.modify fs t p f with
      | Except.ok t₁ => t₁
      | Except.error _ => t
  | StageOp.deleteAt p => Tree.delete t p

/-- A generator body as a sequence of staged calls against the tree. -/
def runStages (fs : FS) (t : Tree) (ops : List StageOp) : Tree :=
  ops.foldl (applyStage fs) t

/-- Options recognized by a run: `{ dryRun, force }`. -/
structure Options where
  dryRun : Bool
  force : Bool
deriving DecidableEq, Repr

/-- Terminal outcome of a pipeline run. -/
inductive Outcome where
  | applied
  | skipped
  | previewedOnly
  | aborted
deriving DecidableEq, Repr

/-- `runGenerator` (dry-run pipeline): build a fresh tree, run the
generator against it, and either stop at the preview (dry run, commit
never called) or commit. -/
def runGenerator (fs : FS) (base : String) (body : List StageOp)
    (opts : Options) : FS × Outcome × List Change :=
  let t := runStages fs (Tree.mk base []) body
  if opts.dryRun then
    (fs, Outcome.previewedOnly, t.getChanges)
  else
    let co := Tree.commit fs t
    match co.result with
    | Except.ok _ => (co.fs, Outcome.applied, t.getChanges)
    | Except.error _ => (co.fs, Outcome.aborted, t.getChanges)

/-- `checkInstalled` (idempotency detector): true exactly when every
marker probe exists against the tree's effective state. -/
def checkInstalled (fs : FS) (t : Tree) (probes : List String) : Bool :=
  probes.all (fun p => Tree.existsFile fs t p)

/-- The `generate` skeleton of an idempotent generator: check the markers
first; when already installed and not forced, return at once having
staged nothing (the skip path); otherwise run the body. The boolean
reports whether the run skipped. -/
def generate (fs : FS) (t : Tree) (probes : List String)
    (body : List StageOp) (force : Bool) : Tree × Bool :=
  if checkInstalled fs t probes && !force then (t, true)
  else (runStages fs t body, false)

/-- Paths the post-run summary lists under Created:
`changes.filter(c => c.type === 'create')`. -/
def createdPaths (changes : List Change) : List String :=
  (changes.filter (fun c => c.type == ChangeType.create)).map Change.path

/-- Paths the post-run summary lists under Modified:
`changes.filter(c => c.type === 'modify')`. -/
def modifiedPaths (changes : List Change) : List String :=
  (changes.filter (fun c => c.type == ChangeType.modify)).map Change.path

/-- Whether a commit resolved (true) or rejected with an exception
(false), as observed by the caller. -/
def exceptIsOk {ε α : Type} : Except ε α → Bool
  | Except.ok _ => true
  | Except.error _ => false

instance {ε α : Type} [DecidableEq ε] [DecidableEq α] :
    DecidableEq (Except ε α) := fun x y =>
  match x, y with
  | Except.ok a, Except.ok b => decidable_of_iff (a = b) (by simp)
  | Except.ok _, Except.error _ => isFalse (by simp)
  | Except.error _, Except.ok _ => isFalse (by simp)
  | Except.error e, Except.error f => decidable_of_iff (e = f) (by simp)

/-- Well-formedness of the overlay map: keys are distinct and every
record is stored under its own path (every map built by the tree
operations satisfies this). -/
def Tree.wf (t : Tree) : Bool :=
  decide (t.changes.map Prod.fst).Nodup &&
    t.changes.all (fun e => e.2.path == e.1)

/-! ### Lemmas about the insertion-ordered map -/

theorem alistGet_set_self {α : Type} (m : List (String × α)) (k : String) (v : α) :
    alistGet (alistSet m k v) k = some v := by
  induction m with
  | nil => simp [alistSet, alistGet]
  | cons e rest ih =>
      obtain ⟨k₀, v₀⟩ := e
      by_cases h : k₀ = k
      · simp [alistSet, alistGet, h]
      · simp [alistSet, alistGet, h, ih]

theorem alistGet_set_ne {α : Type} (m : List (String × α)) (k k' : String) (v : α)
    (h : k' ≠ k) : alistGet (alistSet m k v) k' = alistGet m k' := by
  induction m with
  | nil => simp [alistSet, alistGet, Ne.symm h]
  | cons e rest ih =>
      obtain ⟨k₀, v₀⟩ := e
      by_cases h₀ : k₀ = k
      · subst h₀
        simp [alistSet, alistGet, Ne.symm h]
      · simp only [alistSet, if_neg h₀, alistGet, ih]

theorem alistSet_set_same {α : Type} (m : List (String × α)) (k : String) (v w : α) :
    alistSet (alistSet m k v) k w = alistSet m k w := by
  induction m with
  | nil => simp [alistSet]
  | cons e rest ih =>
      obtain ⟨k₀, v₀⟩ := e
      by_cases h : k₀ = k
      · simp [alistSet, h]
      · simp [alistSet, h, ih]

theorem alistSet_keys {α : Type} (m : List (String × α)) (k : String) (v : α) :
    (alistSet m k v).map Prod.fst =
      if k ∈ m.map Prod.fst then m.map Prod.fst else m.map Prod.fst ++ [k] := by
  induction m with
  | nil => simp [alistSet]
  | cons e rest ih =>
      obtain ⟨k₀, v₀⟩ := e
      by_cases h : k₀ = k
      · subst h
        simp [alistSet]
      · have hkk : ¬ k = k₀ := fun hc => h hc.symm
        simp only [alistSet, if_neg h, List.map_cons, List.mem_cons, hkk, false_or, ih]
        by_cases hm : k ∈ rest.map Prod.fst
        · simp [hm]
        · simp [hm]

theorem alistGet_remove_self {α : Type} (m : List (String × α)) (k : String) :
    alistGet (alistRemove m k) k = none := by
  induction m with
  | nil => simp [alistRemove, alistGet]
  | cons e rest ih =>
      obtain ⟨k₀, v₀⟩ := e
      by_cases h : k₀ = k
      · simp [alistRemove, h, ih]
      · simp [alistRemove, alistGet, h, ih]

theorem alistGet_mem_values {α : Type} (m : List (String × α)) (k : String) (v : α)
    (h : alistGet m k = some v) : v ∈ m.map Prod.snd := by
  induction m with
  | nil => simp [alistGet] at h
  | cons e rest ih =>
      obtain ⟨k₀, v₀⟩ := e
      by_cases h₀ : k₀ = k
      · simp [alistGet, h₀] at h
        simp [h]
      · simp [alistGet, h₀] at h
        simp [ih h]

/-- Values stored under keys other than `p` whose records carry their own
key as path contribute nothing to a filter on path `p`. -/
theorem values_filter_nil (m : List (String × Change)) (p : String)
    (hpm : ∀ e ∈ m, e.2.path = e.1) (hp : p ∉ m.map Prod.fst) :
    (m.map Prod.snd).filter (fun r => r.path == p) = [] := by
  induction m with
  | nil => simp
  | cons e rest ih =>
      obtain ⟨k₀, v₀⟩ := e
      simp only [List.map_cons, List.mem_cons, not_or] at hp
      have hpath : v₀.path = k₀ := hpm (k₀, v₀) (by simp)
      have hne : (v₀.path == p) = false := by
        simp [hpath]
        exact fun hc => hp.1 hc.symm
      simp only [List.map_cons, List.filter_cons, hne]
      exact ih (fun e he => hpm e (List.mem_cons_of_mem _ he)) hp.2

/-- In a well-formed map the snapshot contains exactly one record with
path `p`: the one stored under key `p`. -/
theorem values_filter_get (m : List (String × Change)) (p : String) (v : Change)
    (hnd : (m.map Prod.fst).Nodup) (hpm : ∀ e ∈ m, e.2.path = e.1)
    (h : alistGet m p = some v) :
    (m.map Prod.snd).filter (fun r => r.path == p) = [v] := by
  induction m with
  | nil => simp [alistGet] at h
  | cons e rest ih =>
      obtain ⟨k₀, v₀⟩ := e
      simp only [List.map_cons, List.nodup_cons] at hnd
      have hpath : v₀.path = k₀ := hpm (k₀, v₀) (by simp)
      by_cases h₀ : k₀ = p
      · subst h₀
        have hv : v₀ = v := by simpa [alistGet] using h
        subst hv
        have hrest : (rest.map Prod.snd).filter (fun r => r.path == k₀) = [] :=
          values_filter_nil rest k₀
            (fun e he => hpm e (List.mem_cons_of_mem _ he)) hnd.1
        simp [List.filter_cons, hpath, hrest]
      · simp only [alistGet, if_neg h₀] at h
        have hne : (v₀.path == p) = false := by
          simp [hpath]
          exact h₀
        simp only [List.map_cons, List.filter_cons, hne]
        exact ih hnd.2 (fun e he => hpm e (List.mem_cons_of_mem _ he)) h

/-- A convenient unfolding of tree well-formedness. -/
theorem wf_iff (t : Tree) :
    t.wf = true ↔
      ((t.changes.map Prod.fst).Nodup ∧ ∀ e ∈ t.changes, e.2.path = e.1) := by
  simp [Tree.wf, List.all_eq_true]

/-- Records stored by `alistSet` under their own path keep the
path-matches-key property. -/
theorem pathsMatch_set (m : List (String × Change)) (p : String) (v : Change)
    (hv : v.path = p) (hpm : ∀ e ∈ m, e.2.path = e.1) :
    ∀ e ∈ alistSet m p v, e.2.path = e.1 := by
  induction m with
  | nil =>
      intro e he
      simp only [alistSet, List.mem_singleton] at he
      simp [he, hv]
  | cons e₀ rest ih =>
      obtain ⟨k₀, v₀⟩ := e₀
      intro e he
      by_cases h₀ : k₀ = p
      · simp only [alistSet, if_pos h₀, List.mem_cons] at he
        rcases he with he | he
        · simp [he, hv]
        · exact hpm e (List.mem_cons_of_mem _ he)
      · simp only [alistSet, if_neg h₀, List.mem_cons] at he
        rcases he with he | he
        · exact hpm e (by simp [he])
        · exact ih (fun e' he' => hpm e' (List.mem_cons_of_mem _ he')) e he

/-- Setting a record under its own path preserves well-formedness of the
overlay map. -/
theorem wf_set (t : Tree) (p : String) (v : Change) (hv : v.path = p)
    (h : t.wf = true) :
    Tree.wf { t with changes := alistSet t.changes p v } = true := by
  rw [wf_iff] at h ⊢
  obtain ⟨hnd, hpm⟩ := h
  refine ⟨?_, pathsMatch_set t.changes p v hv hpm⟩
  rw [alistSet_keys]
  by_cases hm : p ∈ t.changes.map Prod.fst
  · simpa [hm] using hnd
  · simp only [hm, if_false]
    simpa [List.nodup_append, hm] using hnd

/-!
### Claim theorems
-/

/-- C1: every staging call mutates only the in-memory changes map, so a
run with dryRun set leaves the real filesystem unchanged, ends as
PreviewedOnly without commit being invoked, and a real existence check
on any path afterwards still reflects the pre-run state. -/
theorem dry_run_leaves_fs_unchanged (fs : FS) (base : String)
    (body : List StageOp) (force : Bool) :
    (runGenerator fs base body ⟨true, force⟩).1 = fs ∧
    (runGenerator fs base body ⟨true, force⟩).2.1 = Outcome.previewedOnly ∧
    ∀ p : String,
      fsExists (runGenerator fs base body ⟨true, force⟩).1 p = fsExists fs p := by
  refine ⟨rfl, rfl, fun p => rfl⟩

/-- C7: after write(p, c) the tree reads back exactly c at p, for every
real filesystem state (in particular when p is absent on disk), and also
when a Delete had previously been staged for p in the same run. -/
theorem read_after_write (fs : FS) (t : Tree) (p c : String) :
    Tree.read fs (Tree.write t p c) p = some c ∧
    Tree.read fs (Tree.write (Tree.delete t p) p c) p = some c := by
  constructor <;> simp [Tree.read, Tree.write, Tree.delete, alistGet_set_self]

/-- C5 counterexample: staging write(p, c) then delete(p) does NOT
remove the stage entry; listChanges() afterwards holds a pending Delete
record for p, so the record set for p is not empty. -/
theorem delete_cancels_create_cex :
    (Tree.delete (Tree.write (Tree.mk "b" []) "p" "c") "p").getChanges
      = [⟨ChangeType.delete, "p", none⟩] ∧
    (Tree.delete (Tree.write (Tree.mk "b" []) "p" "c") "p").getChanges.filter
        (fun r => r.path == "p") ≠ [] := by
  constructor
  · rfl
  · decide

/-- C5 amended: delete(p) after a same-run write(p, c) replaces the
staged Create in place (last write wins), leaving exactly one record for
p in listChanges(): a pending Delete — the same overlay as a plain
delete(p); through the tree, p then reads as absent. -/
theorem delete_after_write_stages_delete (t : Tree) (p c : String) :
    Tree.delete (Tree.write t p c) p = Tree.delete t p ∧
    alistGet (Tree.delete (Tree.write t p c) p).changes p
      = some ⟨ChangeType.delete, p, none⟩ ∧
    (∀ fs : FS,
      Tree.read fs (Tree.delete (Tree.write t p c) p) p = none ∧
      Tree.existsFile fs (Tree.delete (Tree.write t p c) p) p = false) ∧
    (t.wf = true →
      (Tree.delete (Tree.write t p c) p).getChanges.filter (fun r => r.path == p)
        = [⟨ChangeType.delete, p, none⟩]) := by
  refine ⟨?_, ?_, ?_, ?_⟩
  · simp [Tree.delete, Tree.write, alistSet_set_same]
  · simp [Tree.delete, Tree.write, alistGet_set_self]
  · intro fs
    constructor
    · simp [Tree.read, Tree.delete, Tree.write, alistGet_set_self]
    · simp [Tree.existsFile, Tree.delete, Tree.write, alistGet_set_self]
  · intro hwf
    have h₁ : (Tree.write t p c).wf = true :=
      wf_set t p ⟨ChangeType.create, p, some c⟩ rfl hwf
    have h₂ : (Tree.delete (Tree.write t p c) p).wf = true :=
      wf_set (Tree.write t p c) p ⟨ChangeType.delete, p, none⟩ rfl h₁
    rw [wf_iff] at h₂
    simpa [Tree.getChanges] using
      values_filter_get (Tree.delete (Tree.write t p c) p).changes p
        ⟨ChangeType.delete, p, none⟩ h₂.1 h₂.2 (alistGet_set_self _ _ _)

/-- C5 witness: the amended behaviour at a concrete input. -/
theorem delete_after_write_stages_delete_witness :
    Tree.delete (Tree.write (Tree.mk "b" []) "p" "c") "p"
      = Tree.delete (Tree.mk "b" []) "p" ∧
    alistGet (Tree.delete (Tree.write (Tree.mk "b" []) "p" "c") "p").changes "p"
      = some ⟨ChangeType.delete, "p", none⟩ ∧
    Tree.read ⟨[("b/p", "old")], []⟩
        (Tree.delete (Tree.write (Tree.mk "b" []) "p" "c") "p") "p" = none ∧
    Tree.existsFile ⟨[("b/p", "old")], []⟩
        (Tree.delete (Tree.write (Tree.mk "b" []) "p" "c") "p") "p" = false ∧
    (Tree.delete (Tree.write (Tree.mk "b" []) "p" "c") "p").getChanges.filter
        (fun r => r.path == "p") = [⟨ChangeType.delete, "p", none⟩] := by
  have h := delete_after_write_stages_delete (Tree.mk "b" []) "p" "c"
  exact ⟨h.1, h.2.1, (h.2.2.1 ⟨[("b/p", "old")], []⟩).1,
    (h.2.2.1 ⟨[("b/p", "old")], []⟩).2, h.2.2.2 (by decide)⟩

/-- C6 counterexample: the snapshot follows staging order, so two runs
staging the same records in different orders get different snapshots,
and the snapshot of the first run is not sorted by path. -/
theorem listChanges_order_dependent_cex :
    (Tree.write (Tree.write (Tree.mk "b" []) "b1" "x") "a1" "y").getChanges
      ≠ (Tree.write (Tree.write (Tree.mk "b" []) "a1" "y") "b1" "x").getChanges ∧
    (Tree.write (Tree.write (Tree.mk "b" []) "b1" "x") "a1" "y").getChanges.map
        Change.path = ["b1", "a1"] := by
  constructor
  · decide
  · rfl

/-- C6 amended: listChanges() is a deterministic snapshot in insertion
order: one record per staged path listed in key order, and a staging
call either keeps the key order unchanged (path already staged) or
appends the new path at the end. -/
theorem listChanges_insertion_order (fs : FS) (t : Tree) (op : StageOp)
    (h : t.wf = true) :
    t.getChanges.map Change.path = t.changes.map Prod.fst ∧
    (applyStage fs t op).wf = true ∧
    ((applyStage fs t op).changes.map Prod.fst = t.changes.map Prod.fst ∨
      ∃ k, (applyStage fs t op).changes.map Prod.fst
        = t.changes.map Prod.fst ++ [k]) := by
  obtain ⟨hnd, hpm⟩ := (wf_iff t).mp h
  have hpaths : t.getChanges.map Change.path = t.changes.map Prod.fst := by
    simp only [Tree.getChanges, List.map_map]
    exact List.map_congr_left (fun e he => hpm e he)
  refine ⟨hpaths, ?_⟩
  have keyStep : ∀ (v : Change) (p : String),
      (alistSet t.changes p v).map Prod.fst = t.changes.map Prod.fst ∨
        ∃ k, (alistSet t.changes p v).map Prod.fst
          = t.changes.map Prod.fst ++ [k] := by
    intro v p
    rw [alistSet_keys]
    by_cases hm : p ∈ t.changes.map Prod.fst
    · exact Or.inl (by simp [hm])
    · exact Or.inr ⟨p, by simp [hm]⟩
  cases op with
  | write p c =>
      exact ⟨wf_set t p ⟨ChangeType.create, p, some c⟩ rfl h, keyStep _ p⟩
  | deleteAt p =>
      exact ⟨wf_set t p ⟨ChangeType.delete, p, none⟩ rfl h, keyStep _ p⟩
  | modifyWith p f =>
      cases hr : Tree.read fs t p with
      | none =>
          simp only [applyStage, Tree.modify, hr]
          exact ⟨h, Or.inl trivial⟩
      | some s =>
          by_cases hs : s = ""
          · simp only [applyStage, Tree.modify, hr, if_pos hs]
            exact ⟨h, Or.inl trivial⟩
          · simp only [applyStage, Tree.modify, hr, if_neg hs]
            exact ⟨wf_set t p ⟨ChangeType.modify, p, some (f s)⟩ rfl h, keyStep _ p⟩

/-- C6 witness: the amended behaviour at a concrete input. -/
theorem listChanges_insertion_order_witness :
    (Tree.mk "b" [("a", ⟨ChangeType.create, "a", some "x"⟩)]).getChanges.map
        Change.path
      = (Tree.mk "b" [("a", ⟨ChangeType.create, "a", some "x"⟩)]).changes.map
          Prod.fst ∧
    (applyStage ⟨[], []⟩ (Tree.mk "b" [("a", ⟨ChangeType.create, "a", some "x"⟩)])
        (StageOp.write "c1" "y")).wf = true ∧
    ((applyStage ⟨[], []⟩ (Tree.mk "b" [("a", ⟨ChangeType.create, "a", some "x"⟩)])
          (StageOp.write "c1" "y")).changes.map Prod.fst
        = (Tree.mk "b" [("a", ⟨ChangeType.create, "a", some "x"⟩)]).changes.map
            Prod.fst ∨
      ∃ k, (applyStage ⟨[], []⟩
            (Tree.mk "b" [("a", ⟨ChangeType.create, "a", some "x"⟩)])
            (StageOp.write "c1" "y")).changes.map Prod.fst
          = (Tree.mk "b" [("a", ⟨ChangeType.create, "a", some "x"⟩)]).changes.map
              Prod.fst ++ [k]) :=
  listChanges_insertion_order ⟨[], []⟩
    (Tree.mk "b" [("a", ⟨ChangeType.create, "a", some "x"⟩)])
    (StageOp.write "c1" "y") (by decide)

/-- The plain path join of the Tree class is injective in the relative
path for a fixed base directory. -/
theorem joinPath_inj (base : String) {p q : String}
    (h : joinPath base p = joinPath base q) : p = q := by
  have h2 : (base ++ "/").data ++ p.data = (base ++ "/").data ++ q.data := by
    have h1 := congrArg String.data h
    simpa [joinPath, String.data_append, List.append_assoc] using h1
  have h3 : p.data = q.data := List.append_cancel_left h2
  exact congrArg String.mk h3

/-- C3 counterexample: the apply loop runs in staging order, so a Delete
staged before a Create hits the disk first — not creates-first sorted by
path as claimed. -/
theorem commit_order_cex :
    (Tree.commit ⟨[("b/a/old.txt", "o")], []⟩
        (Tree.write (Tree.delete (Tree.mk "b" []) "a/old.txt")
          "a/b/file.txt" "N")).applied
      = [AppliedOp.removed "b/a/old.txt", AppliedOp.wrote "b/a/b/file.txt" "N"] ∧
    ¬ (Tree.commit ⟨[("b/a/old.txt", "o")], []⟩
        (Tree.write (Tree.delete (Tree.mk "b" []) "a/old.txt")
          "a/b/file.txt" "N")).applied
      = [AppliedOp.wrote "b/a/b/file.txt" "N", AppliedOp.removed "b/a/old.txt"] := by
  refine ⟨by decide, by decide⟩

/-- C3 amended: the apply phase processes the staged records in
insertion (staging) order, one pass, whatever their kinds: a delete of
an existing file staged before a create is applied before it; the final
state still has the created file present and the deleted one gone. -/
theorem commit_staging_order (fs : FS) (base pDel pCre cCre : String)
    (hne : pCre ≠ pDel) (hfail : fs.failing = [])
    (hex : fsExists fs (joinPath base pDel) = true) :
    (Tree.commit fs
        (Tree.write (Tree.delete (Tree.mk base []) pDel) pCre cCre)).applied
      = [AppliedOp.removed (joinPath base pDel),
         AppliedOp.wrote (joinPath base pCre) cCre] ∧
    (Tree.commit fs
        (Tree.write (Tree.delete (Tree.mk base []) pDel) pCre cCre)).result
      = Except.ok () ∧
    fsExists (Tree.commit fs
        (Tree.write (Tree.delete (Tree.mk base []) pDel) pCre cCre)).fs
      (joinPath base pCre) = true ∧
    fsExists (Tree.commit fs
        (Tree.write (Tree.delete (Tree.mk base []) pDel) pCre cCre)).fs
      (joinPath base pDel) = false := by
  have hd : ¬ pDel = pCre := fun hc => hne hc.symm
  have hj : joinPath base pDel ≠ joinPath base pCre :=
    fun hc => hd (joinPath_inj base hc)
  have hex2 : (alistGet fs.files (joinPath base pDel)).isSome = true := by
    simpa [fsExists] using hex
  refine ⟨?_, ?_, ?_, ?_⟩ <;>
    simp [Tree.commit, Tree.getChanges, Tree.write, Tree.delete, alistSet, hd,
      commitGo, fsWrite, fsDelete, hfail, hex2, fsExists, alistGet_set_self,
      alistGet_set_ne _ _ _ _ hj, alistGet_remove_self]

/-- C3 witness: the amended ordering at a concrete input. -/
theorem commit_staging_order_witness :
    (Tree.commit ⟨[("b/a/old.txt", "o")], []⟩
        (Tree.write (Tree.delete (Tree.mk "b" []) "a/old.txt")
          "a/b/file.txt" "N")).applied
      = [AppliedOp.removed (joinPath "b" "a/old.txt"),
         AppliedOp.wrote (joinPath "b" "a/b/file.txt") "N"] ∧
    (Tree.commit ⟨[("b/a/old.txt", "o")], []⟩
        (Tree.write (Tree.delete (Tree.mk "b" []) "a/old.txt")
          "a/b/file.txt" "N")).result = Except.ok () ∧
    fsExists (Tree.commit ⟨[("b/a/old.txt", "o")], []⟩
        (Tree.write (Tree.delete (Tree.mk "b" []) "a/old.txt")
          "a/b/file.txt" "N")).fs (joinPath "b" "a/b/file.txt") = true ∧
    fsExists (Tree.commit ⟨[("b/a/old.txt", "o")], []⟩
        (Tree.write (Tree.delete (Tree.mk "b" []) "a/old.txt")
          "a/b/file.txt" "N")).fs (joinPath "b" "a/old.txt") = false :=
  commit_staging_order ⟨[("b/a/old.txt", "o")], []⟩ "b" "a/old.txt"
    "a/b/file.txt" "N" (by decide) rfl (by decide)

/-- C2 counterexample: commit on a staged create at a traversal path
succeeds (no SecurityError, no abort) and changes the real filesystem,
writing outside the base directory. -/
theorem commit_no_security_cex :
    (Tree.commit ⟨[], []⟩ (Tree.write (Tree.mk "/proj" []) "../evil" "x")).result
      = Except.ok () ∧
    (Tree.commit ⟨[], []⟩ (Tree.write (Tree.mk "/proj" []) "../evil" "x")).fs
      = ⟨[("/proj/../evil", "x")], []⟩ ∧
    ¬ (Tree.commit ⟨[], []⟩ (Tree.write (Tree.mk "/proj" []) "../evil" "x")).fs
      = (⟨[], []⟩ : FS) := by
  refine ⟨by decide, by decide, by decide⟩

/-- C2 amended: commit has no validate phase: a staged Create whose path
is a dot-dot traversal is applied like any other record — the write goes
to join(baseDirectory, path), textually outside the base directory, and
commit resolves successfully. -/
theorem commit_applies_traversal_paths (fs : FS) (base c : String)
    (hfail : fs.failing = []) :
    (Tree.commit fs (Tree.write (Tree.mk base []) "../evil" c)).result
      = Except.ok () ∧
    (Tree.commit fs (Tree.write (Tree.mk base []) "../evil" c)).fs.files
      = alistSet fs.files (joinPath base "../evil") c ∧
    fsRead (Tree.commit fs (Tree.write (Tree.mk base []) "../evil" c)).fs
      (joinPath base "../evil") = some c := by
  refine ⟨?_, ?_, ?_⟩ <;>
    simp [Tree.commit, Tree.getChanges, Tree.write, alistSet, commitGo, fsWrite,
      hfail, fsRead, alistGet_set_self]

/-- C2 witness: the amended behaviour at a concrete input. -/
theorem commit_applies_traversal_paths_witness :
    (Tree.commit ⟨[], []⟩ (Tree.write (Tree.mk "/proj" []) "../evil" "x")).result
      = Except.ok () ∧
    (Tree.commit ⟨[], []⟩ (Tree.write (Tree.mk "/proj" []) "../evil" "x")).fs.files
      = alistSet ([] : List (String × String)) (joinPath "/proj" "../evil") "x" ∧
    fsRead (Tree.commit ⟨[], []⟩
        (Tree.write (Tree.mk "/proj" []) "../evil" "x")).fs
      (joinPath "/proj" "../evil") = some "x" :=
  commit_applies_traversal_paths ⟨[], []⟩ "/proj" "x" rfl

/-- C4 counterexample: two commits whose sets of successfully applied
records differ (none versus one) return the identical caller-visible
result — the propagated raw storage error — so the result does not mark
which records succeeded or were never attempted. -/
theorem commit_error_unmarked_cex :
    (Tree.commit ⟨[], ["b/f"]⟩ (Tree.write (Tree.mk "b" []) "f" "x")).result
      = (Tree.commit ⟨[], ["b/f"]⟩
          (Tree.write (Tree.write (Tree.mk "b" []) "g" "y") "f" "x")).result ∧
    (Tree.commit ⟨[], ["b/f"]⟩ (Tree.write (Tree.mk "b" []) "f" "x")).applied
      = [] ∧
    (Tree.commit ⟨[], ["b/f"]⟩
        (Tree.write (Tree.write (Tree.mk "b" []) "g" "y") "f" "x")).applied
      = [AppliedOp.wrote "b/g" "y"] := by
  refine ⟨by decide, by decide, by decide⟩

/-- C4 amended: when any apply step raises — the write of a staged
Create or Modify record, or the unlink of a staged Delete record whose
target exists (the only case in which the loop calls the storage at all
for a Delete) — the loop stops at once: the failing record leaves the
filesystem and trace exactly as they were before it and no later record
is attempted, the commit rejects with the raw storage error, and the
staged overlay is retained (no clear). -/
theorem commit_stops_on_failure :
    (∀ (base : String) (fs : FS) (tr : List AppliedOp) (c : Change)
        (rest : List Change),
      joinPath base c.path ∈ fs.failing →
      (c.type = ChangeType.delete →
        fsExists fs (joinPath base c.path) = true) →
      commitGo base fs tr (c :: rest)
        = (fs, tr, Except.error ("EACCES: " ++ joinPath base c.path))) ∧
    (∀ (fs : FS) (t : Tree) (e : String),
      (Tree.commit fs t).result = Except.error e → (Tree.commit fs t).tree = t) := by
  constructor
  · intro base fs tr c rest h hdel
    cases hc : c.type with
    | create => simp [commitGo, hc, fsWrite, h]
    | modify => simp [commitGo, hc, fsWrite, h]
    | delete =>
        have hex := hdel hc
        simp [commitGo, hc, hex, fsDelete, h]
  · intro fs t e h
    rcases hgo : commitGo t.baseDir fs [] t.getChanges with ⟨fs₁, tr, r⟩
    cases r with
    | ok u => simp [Tree.commit, hgo] at h
    | error e₂ => simp [Tree.commit, hgo]

/-- C4 witness: the amended behaviour at concrete inputs, one per record
kind — a failing Create write, a failing Modify write, and a failing
Delete unlink of an existing file — plus overlay retention. -/
theorem commit_stops_on_failure_witness :
    commitGo "b" ⟨[], ["b/f"]⟩ []
        [⟨ChangeType.create, "f", some "x"⟩, ⟨ChangeType.create, "g", some "y"⟩]
      = (⟨[], ["b/f"]⟩, [], Except.error ("EACCES: " ++ joinPath "b" "f")) ∧
    commitGo "b" ⟨[("b/f", "old")], ["b/f"]⟩ []
        [⟨ChangeType.modify, "f", some "x"⟩, ⟨ChangeType.create, "g", some "y"⟩]
      = (⟨[("b/f", "old")], ["b/f"]⟩, [],
         Except.error ("EACCES: " ++ joinPath "b" "f")) ∧
    commitGo "b" ⟨[("b/f", "old")], ["b/f"]⟩ []
        [⟨ChangeType.delete, "f", none⟩, ⟨ChangeType.create, "g", some "y"⟩]
      = (⟨[("b/f", "old")], ["b/f"]⟩, [],
         Except.error ("EACCES: " ++ joinPath "b" "f")) ∧
    (Tree.commit ⟨[], ["b/f"]⟩
        (Tree.mk "b" [("f", ⟨ChangeType.create, "f", some "x"⟩)])).tree
      = Tree.mk "b" [("f", ⟨ChangeType.create, "f", some "x"⟩)] := by
  refine ⟨?_, ?_, ?_, ?_⟩
  · exact commit_stops_on_failure.1 "b" ⟨[], ["b/f"]⟩ []
      ⟨ChangeType.create, "f", some "x"⟩ [⟨ChangeType.create, "g", some "y"⟩]
      (by decide) (by decide)
  · exact commit_stops_on_failure.1 "b" ⟨[("b/f", "old")], ["b/f"]⟩ []
      ⟨ChangeType.modify, "f", some "x"⟩ [⟨ChangeType.create, "g", some "y"⟩]
      (by decide) (by decide)
  · exact commit_stops_on_failure.1 "b" ⟨[("b/f", "old")], ["b/f"]⟩ []
      ⟨ChangeType.delete, "f", none⟩ [⟨ChangeType.create, "g", some "y"⟩]
      (by decide) (by decide)
  · exact commit_stops_on_failure.2 ⟨[], ["b/f"]⟩ _ ("EACCES: " ++ joinPath "b" "f")
      (by decide)

/-- C8 counterexample: a path whose effective content is the empty
string is present, not absent, yet modify raises the not-exist error on
it (the JS falsy guard), so modify does not fail exactly when the
content is absent. -/
theorem modify_empty_content_cex :
    Tree.read ⟨[("b/f", "")], []⟩ (Tree.mk "b" []) "f" = some "" ∧
    Tree.modify ⟨[("b/f", "")], []⟩ (Tree.mk "b" []) "f" (fun s => s)
      = Except.error "File f does not exist" := by
  refine ⟨by decide, by decide⟩

/-- C8 amended: modify(p, f) reads the current effective content via
read; it fails exactly when that content is absent or empty (the falsy
guard), and otherwise stages f(content) as the staged Modify content for
p, invoking f exactly once with the pre-change content. -/
theorem modify_reads_then_stages (fs : FS) (t : Tree) (p : String)
    (f : String → String) :
    (exceptIsOk (Tree.modify fs t p f) = false ↔
      (Tree.read fs t p = none ∨ Tree.read fs t p = some "")) ∧
    (∀ s, Tree.read fs t p = some s → ¬ s = "" →
      Tree.modify fs t p f
        = Except.ok
            { t with
              changes := alistSet t.changes p ⟨ChangeType.modify, p, some (f s)⟩ } ∧
      Tree.read fs
          { t with
            changes := alistSet t.changes p ⟨ChangeType.modify, p, some (f s)⟩ } p
        = some (f s) ∧
      Tree.modifyCalls fs t p = [s]) ∧
    (exceptIsOk (Tree.modify fs t p f) = false → Tree.modifyCalls fs t p = []) := by
  cases hr : Tree.read fs t p with
  | none =>
      refine ⟨?_, ?_, ?_⟩
      · simp [Tree.modify, hr, exceptIsOk]
      · intro s hs
        exact absurd hs (by simp)
      · intro _
        simp [Tree.modifyCalls, hr]
  | some s₀ =>
      by_cases hs₀ : s₀ = ""
      · subst hs₀
        refine ⟨?_, ?_, ?_⟩
        · simp [Tree.modify, hr, exceptIsOk]
        · intro s hs hne
          injection hs with hss
          exact absurd hss.symm hne
        · intro _
          simp [Tree.modifyCalls, hr]
      · refine ⟨?_, ?_, ?_⟩
        · simp [Tree.modify, hr, hs₀, exceptIsOk]
        · intro s hs hne
          injection hs with hss
          subst hss
          refine ⟨?_, ?_, ?_⟩
          · simp [Tree.modify, hr, hs₀]
          · simp [Tree.read, alistGet_set_self]
          · simp [Tree.modifyCalls, hr, hs₀]
        · intro hok
          simp [Tree.modify, hr, hs₀, exceptIsOk] at hok

/-- C8 witness: the amended behaviour at a concrete input. -/
theorem modify_reads_then_stages_witness :
    Tree.modify ⟨[("b/f", "hello")], []⟩ (Tree.mk "b" []) "f" (fun s => s ++ "!")
      = Except.ok (Tree.mk "b" [("f", ⟨ChangeType.modify, "f", some "hello!"⟩)]) ∧
    Tree.modifyCalls ⟨[("b/f", "hello")], []⟩ (Tree.mk "b" []) "f" = ["hello"] := by
  have h := (modify_reads_then_stages ⟨[("b/f", "hello")], []⟩ (Tree.mk "b" []) "f"
      (fun s => s ++ "!")).2.1 "hello" (by decide) (by decide)
  refine ⟨?_, h.2.2⟩
  rw [h.1]
  decide

/-- C9: installation detection is true exactly when every probe in the
caller-supplied list exists against the tree's effective state, and a
true detection without force skips: the generate call returns at once
with nothing staged, so a commit of the (fresh, empty) tree applies
nothing and leaves the filesystem untouched. -/
theorem checkInstalled_all_probes_and_skip (fs : FS) (t : Tree)
    (probes : List String) (body : List StageOp) :
    (checkInstalled fs t probes = true ↔
      ∀ p ∈ probes, Tree.existsFile fs t p = true) ∧
    (checkInstalled fs t probes = true →
      generate fs t probes body false = (t, true) ∧
      (t.changes = [] →
        (Tree.commit fs t).fs = fs ∧ (Tree.commit fs t).applied = [])) := by
  constructor
  · simp [checkInstalled, List.all_eq_true]
  · intro hc
    refine ⟨by simp [generate, hc], ?_⟩
    intro h0
    have hg : t.getChanges = [] := by simp [Tree.getChanges, h0]
    exact ⟨by simp [Tree.commit, hg, commitGo], by simp [Tree.commit, hg, commitGo]⟩

/-- C9 witness: the skip behaviour at a concrete input. -/
theorem checkInstalled_all_probes_and_skip_witness :
    checkInstalled ⟨[("b/m1", "1"), ("b/m2", "2")], []⟩ (Tree.mk "b" [])
        ["m1", "m2"] = true ∧
    generate ⟨[("b/m1", "1"), ("b/m2", "2")], []⟩ (Tree.mk "b" [])
        ["m1", "m2"] [StageOp.write "n" "c"] false = (Tree.mk "b" [], true) ∧
    (Tree.commit ⟨[("b/m1", "1"), ("b/m2", "2")], []⟩ (Tree.mk "b" [])).fs
      = ⟨[("b/m1", "1"), ("b/m2", "2")], []⟩ ∧
    (Tree.commit ⟨[("b/m1", "1"), ("b/m2", "2")], []⟩ (Tree.mk "b" [])).applied
      = [] := by
  have hc : checkInstalled ⟨[("b/m1", "1"), ("b/m2", "2")], []⟩ (Tree.mk "b" [])
      ["m1", "m2"] = true := by decide
  have h := (checkInstalled_all_probes_and_skip ⟨[("b/m1", "1"), ("b/m2", "2")], []⟩
      (Tree.mk "b" []) ["m1", "m2"] [StageOp.write "n" "c"]).2 hc
  exact ⟨hc, h.1, (h.2 rfl).1, (h.2 rfl).2⟩

/-- C10: write stages a Create record unconditionally — the operation
never consults the real filesystem and replaces even a staged Modify for
the same path — so the post-run summary lists the path under Created and
not under Modified. -/
theorem write_always_creates (t : Tree) (p c : String) :
    alistGet (Tree.write t p c).changes p
      = some ⟨ChangeType.create, p, some c⟩ ∧
    (t.wf = true →
      p ∈ createdPaths (Tree.write t p c).getChanges ∧
      p ∉ modifiedPaths (Tree.write t p c).getChanges) := by
  have hget : alistGet (Tree.write t p c).changes p
      = some ⟨ChangeType.create, p, some c⟩ := by
    simp [Tree.write, alistGet_set_self]
  refine ⟨hget, ?_⟩
  intro hwf
  have hw : (Tree.write t p c).wf = true :=
    wf_set t p ⟨ChangeType.create, p, some c⟩ rfl hwf
  rw [wf_iff] at hw
  have hfilter : (Tree.write t p c).getChanges.filter (fun r => r.path == p)
      = [⟨ChangeType.create, p, some c⟩] := by
    simpa [Tree.getChanges] using
      values_filter_get (Tree.write t p c).changes p
        ⟨ChangeType.create, p, some c⟩ hw.1 hw.2 hget
  constructor
  · have hmem : (⟨ChangeType.create, p, some c⟩ : Change)
        ∈ (Tree.write t p c).getChanges := by
      simpa [Tree.getChanges] using
        alistGet_mem_values (Tree.write t p c).changes p
          ⟨ChangeType.create, p, some c⟩ hget
    simp only [createdPaths, List.mem_map]
    exact ⟨⟨ChangeType.create, p, some c⟩, List.mem_filter.mpr ⟨hmem, rfl⟩, rfl⟩
  · intro hmp
    simp only [modifiedPaths, List.mem_map] at hmp
    obtain ⟨r, hrmem, hrpath⟩ := hmp
    have hr₁ := (List.mem_filter.mp hrmem).1
    have hr₂ := (List.mem_filter.mp hrmem).2
    have hrf : r ∈ (Tree.write t p c).getChanges.filter (fun r => r.path == p) :=
      List.mem_filter.mpr ⟨hr₁, by simp [hrpath]⟩
    rw [hfilter] at hrf
    simp only [List.mem_singleton] at hrf
    subst hrf
    simp at hr₂

/-- C10 witness: at a tree holding a staged Modify for p, write(p, c)
still stages a Create and the summary lists p under Created only. -/
theorem write_always_creates_witness :
    alistGet (Tree.write
        (Tree.mk "b" [("p", ⟨ChangeType.modify, "p", some "m"⟩)]) "p" "c").changes
        "p"
      = some ⟨ChangeType.create, "p", some "c"⟩ ∧
    "p" ∈ createdPaths (Tree.write
        (Tree.mk "b" [("p", ⟨ChangeType.modify, "p", some "m"⟩)]) "p" "c").getChanges ∧
    "p" ∉ modifiedPaths (Tree.write
        (Tree.mk "b" [("p", ⟨ChangeType.modify, "p", some "m"⟩)]) "p" "c").getChanges := by
  have h := write_always_creates
    (Tree.mk "b" [("p", ⟨ChangeType.modify, "p", some "m"⟩)]) "p" "c"
  exact ⟨h.1, (h.2 (by decide)).1, (h.2 (by decide)).2⟩

end Theo
